import Mathlib

/-!
# Verification model of the HD44780U LCD driver (`LCD.py`)

This file gives a shallow embedding of the driver in `src/LCD.py` and proves
properties of that embedding.

Modelling conventions:
* Python integers are unbounded, so they are modelled by `ℤ`; the bitwise
  operators `&`, `|`, `<<`, `~` on Python integers use two's-complement
  semantics and are modelled by `pyAnd`, `pyOr`, `pyShl`, `Int.lnot` below.
  `pyAnd`/`pyOr` are kernel-computable and are proved equal to Mathlib's
  `Int.land`/`Int.lor` (which are the textbook two's-complement operations).
* Python strings are sequences of unicode characters, modelled by `List Char`;
  `len` is `List.length`, slicing `s[:n]`/`s[n:]` is `List.take`/`List.drop`,
  `ord` is `Char.toNat`, and the builtins `str.split()` / `str.rstrip()` are
  modelled by `py_split` / `py_rstrip`.
* An exception aborts the surrounding call, so a sequence of transport writes
  is modelled by `Except String (List ℤ)`: either the raised `LCDException`
  message, or the list of bytes passed to `i2c.writeto` in order.  The delay
  calls (`time.sleep_us`) have no observable effect on the byte trace and are
  not modelled.
* The runtime `type(x) is not str` / `is not int` checks of the Python code
  are satisfied statically by the Lean types of the model and cannot fire.
* The `while` loops of `LCD.write` are modelled by structural recursion on a
  fuel argument; the loop `while row < rows` increases `row` by one on every
  iteration, so `(rows - row).toNat` iterations are exactly enough fuel.
-/

set_option maxRecDepth 10000

namespace LCD

/-! ## Python bitwise primitives -/

/-- Computable form of `Nat.ldiff`: `m - (m &&& n)` clears from `m` every bit
that is set in `n` (proved equal to `Nat.ldiff` in `ldiffC_eq_ldiff`). -/
def ldiffC (m n : ℕ) : ℕ := m - (m &&& n)

theorem ldiff_add_and (m n : ℕ) : Nat.ldiff m n + (m &&& n) = m := by
  induction' m using Nat.binaryRec with b m ih generalizing n
  · simp [Nat.ldiff, Nat.bitwise_zero_left]
  · conv_lhs => rw [← Nat.bit_decomp n]
    rw [Nat.ldiff_bit, Nat.land_bit]
    have h := ih (Nat.div2 n)
    simp only [Nat.bit_val]
    cases b <;> cases Nat.bodd n <;> simp <;> omega

theorem ldiffC_eq_ldiff (m n : ℕ) : ldiffC m n = Nat.ldiff m n := by
  have h := ldiff_add_and m n
  have h2 : m &&& n ≤ m := Nat.and_le_left
  unfold ldiffC
  omega

/-- Python's bitwise AND on unbounded integers (two's-complement semantics),
in a kernel-computable form.  Agrees with Mathlib's `Int.land`, see
`pyAnd_eq_land`. -/
def pyAnd : ℤ → ℤ → ℤ
  | .ofNat m, .ofNat n => .ofNat (m &&& n)
  | .ofNat m, .negSucc n => .ofNat (ldiffC m n)
  | .negSucc m, .ofNat n => .ofNat (ldiffC n m)
  | .negSucc m, .negSucc n => .negSucc (m ||| n)

/-- Python's bitwise OR on unbounded integers (two's-complement semantics),
in a kernel-computable form.  Agrees with Mathlib's `Int.lor`, see
`pyOr_eq_lor`. -/
def pyOr : ℤ → ℤ → ℤ
  | .ofNat m, .ofNat n => .ofNat (m ||| n)
  | .ofNat m, .negSucc n => .negSucc (ldiffC n m)
  | .negSucc m, .ofNat n => .negSucc (ldiffC m n)
  | .negSucc m, .negSucc n => .negSucc (m &&& n)

theorem pyAnd_eq_land (a b : ℤ) : pyAnd a b = Int.land a b := by
  cases a <;> cases b <;> simp [pyAnd, Int.land, ldiffC_eq_ldiff]

theorem pyOr_eq_lor (a b : ℤ) : pyOr a b = Int.lor a b := by
  cases a <;> cases b <;> simp [pyOr, Int.lor, ldiffC_eq_ldiff]

/-- Python's left shift on integers: `a << n` is `a * 2 ^ n` (exact, for
negative `a` as well, since Python integers are unbounded). -/
def pyShl (a : ℤ) (n : ℕ) : ℤ := a * 2 ^ n

/-! ## Constants of `LCD.py` (lines 5-25) -/

def LCD_CLEARDISPLAY : ℤ := 1

def LCD_DISPLAYCONTROL : ℤ := pyShl 1 3

def LCD_DISPLAYON : ℤ := pyShl 1 2

def LCD_CURSORON : ℤ := pyShl 1 1

def LCD_BLINKON : ℤ := pyShl 1 0

def LCD_ENTRYMODESET : ℤ := pyShl 1 2

def LCD_ENTRYLEFT : ℤ := pyShl 1 1

def LCD_ENABLE_BIT : ℤ := pyShl 1 2

def LCD_BACKLIGHT : ℤ := pyShl 1 3

def LCD_COMMAND : ℤ := 0

def LCD_CHARACTER : ℤ := pyShl 1 0

def LCD_RETURNHOME : ℤ := pyShl 1 1

def LCD_SET_DDRAM : ℤ := pyShl 1 7

/-! ## Transport traces -/

/-- Observable outcome of a driver operation: the `LCDException` message it
raises, or the list of bytes written to the I2C transport, in order. -/
abbrev Tr := Except String (List ℤ)

/-- Run `a` then `b`, concatenating their transport traces; an exception in
`a` aborts before `b` runs (Python exception propagation). -/
def seqTr (a b : Tr) : Tr :=
  match a with
  | .error e => .error e
  | .ok t =>
    match b with
    | .error e => .error e
    | .ok u => .ok (t ++ u)

instance {ε α : Type} [DecidableEq ε] [DecidableEq α] :
    DecidableEq (Except ε α) := fun a b =>
  match a, b with
  | .ok x, .ok y => decidable_of_iff (x = y) (by simp)
  | .error e, .error f => decidable_of_iff (e = f) (by simp)
  | .ok _, .error _ => isFalse (by simp)
  | .error _, .ok _ => isFalse (by simp)

def err_i2c_type : String := "integer expected for writing to i2c"

def err_i2c_bounds : String := "byte for sending to i2c is out of bounds"

/-! ## Protocol layer (`LCD.__write_i2c_byte`, `__toggle_enable`,
`__send_byte`, lines 87-129) -/

/-- `LCD.__write_i2c_byte` (lines 87-98).  The `type(byte) is not int` check
is statically satisfied.  The range check `0 <= byte <= 255` raises
`LCDException` when violated; otherwise one byte goes to the transport. -/
def write_i2c_byte (byte : ℤ) : Tr :=
  if 0 ≤ byte ∧ byte ≤ 255 then .ok [byte] else .error err_i2c_bounds

/-- `LCD.__toggle_enable` (lines 100-109): write `value | LCD_ENABLE_BIT`,
then `value & ~LCD_ENABLE_BIT` (the sleeps have no trace effect). -/
def toggle_enable (value : ℤ) : Tr :=
  seqTr (write_i2c_byte (pyOr value LCD_ENABLE_BIT))
    (write_i2c_byte (pyAnd value (Int.lnot LCD_ENABLE_BIT)))

/-- `LCD.__send_byte` (lines 111-129): frame the two nibbles of `byte` with
`mode` and the backlight bit, and for each frame write it and pulse enable. -/
def send_byte (byte mode : ℤ) : Tr :=
  let first := pyOr (pyOr mode (pyAnd byte 0xf0)) (pyShl 1 3)
  let second := pyOr (pyOr mode (pyAnd (pyShl byte 4) 0xf0)) (pyShl 1 3)
  seqTr (seqTr (write_i2c_byte first) (toggle_enable first))
    (seqTr (write_i2c_byte second) (toggle_enable second))

/-- The six bytes that one `__send_byte` call puts on the transport
(data frame, frame with enable set, frame with enable cleared — for the high
nibble and then for the low nibble). -/
def send_byte_frames (byte mode : ℤ) : List ℤ :=
  let first := pyOr (pyOr mode (pyAnd byte 0xf0)) (pyShl 1 3)
  let second := pyOr (pyOr mode (pyAnd (pyShl byte 4) 0xf0)) (pyShl 1 3)
  [first, pyOr first LCD_ENABLE_BIT, pyAnd first (Int.lnot LCD_ENABLE_BIT),
    second, pyOr second LCD_ENABLE_BIT, pyAnd second (Int.lnot LCD_ENABLE_BIT)]

/-! ### Range facts about the frames -/

theorem pyAnd_nonneg_le (v : ℤ) (n : ℕ) :
    0 ≤ pyAnd v (n : ℤ) ∧ pyAnd v (n : ℤ) ≤ (n : ℤ) := by
  cases v with
  | ofNat m =>
    show 0 ≤ Int.ofNat (m &&& n) ∧ Int.ofNat (m &&& n) ≤ Int.ofNat n
    exact ⟨Int.ofNat_nonneg _, Int.ofNat_le.mpr Nat.and_le_right⟩
  | negSucc m =>
    show 0 ≤ Int.ofNat (ldiffC n m) ∧ Int.ofNat (ldiffC n m) ≤ Int.ofNat n
    exact ⟨Int.ofNat_nonneg _, Int.ofNat_le.mpr (Nat.sub_le _ _)⟩

theorem pyOr_lt_256 {a b : ℤ} (ha0 : 0 ≤ a) (ha : a < 256) (hb0 : 0 ≤ b)
    (hb : b < 256) : 0 ≤ pyOr a b ∧ pyOr a b < 256 := by
  obtain ⟨m, rfl⟩ := Int.eq_ofNat_of_zero_le ha0
  obtain ⟨n, rfl⟩ := Int.eq_ofNat_of_zero_le hb0
  have hm : m < 2 ^ 8 := by exact_mod_cast ha
  have hn : n < 2 ^ 8 := by exact_mod_cast hb
  have h := Nat.or_lt_two_pow hm hn
  constructor
  · exact Int.ofNat_nonneg _
  · show ((m ||| n : ℕ) : ℤ) < 256
    exact_mod_cast h

theorem pyAnd_lnot4_range {a : ℤ} (ha0 : 0 ≤ a) (ha : a ≤ 255) :
    0 ≤ pyAnd a (Int.lnot LCD_ENABLE_BIT) ∧
      pyAnd a (Int.lnot LCD_ENABLE_BIT) ≤ 255 := by
  obtain ⟨m, rfl⟩ := Int.eq_ofNat_of_zero_le ha0
  have hm255 : m ≤ 255 := by exact_mod_cast ha
  show 0 ≤ Int.ofNat (ldiffC m 4) ∧ Int.ofNat (ldiffC m 4) ≤ 255
  refine ⟨Int.ofNat_nonneg _, ?_⟩
  have h1 : ldiffC m 4 ≤ 255 := le_trans (Nat.sub_le _ _) hm255
  show ((ldiffC m 4 : ℕ) : ℤ) ≤ 255
  exact_mod_cast h1

/-- Either framed nibble of `__send_byte` is a valid transport byte whenever
the mode is one of the two constants the driver uses. -/
theorem frame_range {mode : ℤ}
    (hm : mode = LCD_COMMAND ∨ mode = LCD_CHARACTER) (v : ℤ) :
    0 ≤ pyOr (pyOr mode (pyAnd v 0xf0)) (pyShl 1 3) ∧
      pyOr (pyOr mode (pyAnd v 0xf0)) (pyShl 1 3) ≤ 255 := by
  have hmode : 0 ≤ mode ∧ mode < 256 := by
    rcases hm with h | h <;> subst h <;> constructor <;> decide
  have hv : 0 ≤ pyAnd v (240 : ℕ) ∧ pyAnd v (240 : ℕ) ≤ (240 : ℕ) :=
    pyAnd_nonneg_le v 240
  have hv' : 0 ≤ pyAnd v 0xf0 ∧ pyAnd v 0xf0 ≤ 240 := by
    exact_mod_cast hv
  have h1 := pyOr_lt_256 hmode.1 hmode.2 hv'.1 (by omega)
  have h2 := pyOr_lt_256 h1.1 h1.2 (show (0:ℤ) ≤ pyShl 1 3 by decide)
    (show pyShl 1 3 < 256 by decide)
  omega

theorem write_i2c_byte_ok {b : ℤ} (h0 : 0 ≤ b) (h255 : b ≤ 255) :
    write_i2c_byte b = .ok [b] := by
  simp [write_i2c_byte, h0, h255]

theorem toggle_enable_ok {b : ℤ} (h0 : 0 ≤ b) (h255 : b ≤ 255) :
    toggle_enable b =
      .ok [pyOr b LCD_ENABLE_BIT, pyAnd b (Int.lnot LCD_ENABLE_BIT)] := by
  have h1 := pyOr_lt_256 h0 (by omega) (show (0:ℤ) ≤ LCD_ENABLE_BIT by decide)
    (show LCD_ENABLE_BIT < 256 by decide)
  have h2 := pyAnd_lnot4_range h0 h255
  rw [toggle_enable, write_i2c_byte_ok h1.1 (by omega),
    write_i2c_byte_ok h2.1 h2.2]
  rfl

/-- `__send_byte` never raises (for the two modes the driver uses): the
nibble masking keeps every frame inside `0..255`, so the range check of
`__write_i2c_byte` always passes, and exactly the six `send_byte_frames`
bytes are written. -/
theorem send_byte_ok (byte : ℤ) {mode : ℤ}
    (hm : mode = LCD_COMMAND ∨ mode = LCD_CHARACTER) :
    send_byte byte mode = .ok (send_byte_frames byte mode) := by
  have h1 := frame_range hm byte
  have h2 := frame_range hm (pyShl byte 4)
  simp only [send_byte, send_byte_frames]
  rw [write_i2c_byte_ok h1.1 h1.2, toggle_enable_ok h1.1 h1.2,
    write_i2c_byte_ok h2.1 h2.2, toggle_enable_ok h2.1 h2.2]
  rfl

theorem send_byte_frames_length (byte mode : ℤ) :
    (send_byte_frames byte mode).length = 6 := rfl

theorem send_byte_frames_range (byte : ℤ) {mode : ℤ}
    (hm : mode = LCD_COMMAND ∨ mode = LCD_CHARACTER) :
    ∀ b ∈ send_byte_frames byte mode, 0 ≤ b ∧ b ≤ 255 := by
  have h1 := frame_range hm byte
  have h2 := frame_range hm (pyShl byte 4)
  have h1e := pyOr_lt_256 h1.1 (by omega)
    (show (0:ℤ) ≤ LCD_ENABLE_BIT by decide)
    (show LCD_ENABLE_BIT < 256 by decide)
  have h1d := pyAnd_lnot4_range h1.1 h1.2
  have h2e := pyOr_lt_256 h2.1 (by omega)
    (show (0:ℤ) ≤ LCD_ENABLE_BIT by decide)
    (show LCD_ENABLE_BIT < 256 by decide)
  have h2d := pyAnd_lnot4_range h2.1 h2.2
  intro b hb
  simp only [send_byte_frames, List.mem_cons, List.not_mem_nil,
    or_false] at hb
  rcases hb with rfl | rfl | rfl | rfl | rfl | rfl
  · exact ⟨h1.1, h1.2⟩
  · exact ⟨h1e.1, by omega⟩
  · exact h1d
  · exact ⟨h2.1, h2.2⟩
  · exact ⟨h2e.1, by omega⟩
  · exact h2d

/-! ## Cursor addressing (`LCD.set_cursor`, lines 131-142) -/

def err_row : String := "invalid row for cursor"

def err_col : String := "invalid column for cursor"

def row_offsets : List ℤ := [0x00, 0x40, 0x14, 0x54]

/-- `LCD.set_cursor` (lines 131-142).  `row not in range(len(row_offsets))`
is `¬(0 ≤ row < 4)` for an integer `row`; the final command byte is
`(LCD_SET_DDRAM | col) + row_offsets[row]`, sent as a command. -/
def set_cursor (cols : ℕ) (row col : ℤ) : Tr :=
  if ¬(0 ≤ row ∧ row < 4) then .error err_row
  else if ¬(0 ≤ col ∧ col < (cols : ℤ)) then .error err_col
  else
    send_byte ((pyOr LCD_SET_DDRAM col) + row_offsets.getD row.toNat 0)
      LCD_COMMAND

/-- The transport bytes of a successful `set_cursor` call. -/
def set_cursor_frames (row col : ℤ) : List ℤ :=
  send_byte_frames ((pyOr LCD_SET_DDRAM col) + row_offsets.getD row.toNat 0)
    LCD_COMMAND

theorem set_cursor_ok {cols : ℕ} {row col : ℤ} (hr0 : 0 ≤ row) (hr : row < 4)
    (hc0 : 0 ≤ col) (hc : col < (cols : ℤ)) :
    set_cursor cols row col = .ok (set_cursor_frames row col) := by
  rw [set_cursor, if_neg (by omega), if_neg (by omega),
    send_byte_ok _ (Or.inl rfl), set_cursor_frames]

theorem set_cursor_ok_inv {cols : ℕ} {row col : ℤ} {t : List ℤ}
    (h : set_cursor cols row col = .ok t) : t = set_cursor_frames row col := by
  rw [set_cursor] at h
  split at h
  · exact absurd h (by simp)
  · split at h
    · exact absurd h (by simp)
    · rw [send_byte_ok _ (Or.inl rfl)] at h
      exact (Except.ok.injEq _ _ ▸ h.symm : _)

/-! ## Characters and strings (`LCD.write_character`, `LCD.write_string`,
lines 144-152 and 190-199) -/

/-- `LCD.write_character` (lines 144-152): the `str`/length-one checks are
statically satisfied by `Char`; sends `ord(character)` in character mode. -/
def write_character (c : Char) : Tr :=
  send_byte (c.toNat : ℤ) LCD_CHARACTER

/-- `LCD.write_string` (lines 190-199): writes each character in order. -/
def write_string (s : List Char) : Tr :=
  s.foldl (fun acc c => seqTr acc (write_character c)) (.ok [])

/-- The transport bytes of a `write_string` call (it never raises). -/
def string_frames (s : List Char) : List ℤ :=
  (s.map fun c => send_byte_frames (c.toNat : ℤ) LCD_CHARACTER).flatten

theorem write_string_ok (s : List Char) :
    write_string s = .ok (string_frames s) := by
  suffices h : ∀ t : List ℤ,
      s.foldl (fun acc c => seqTr acc (write_character c)) (.ok t) =
        .ok (t ++ string_frames s) by
    simpa [write_string] using h []
  induction s with
  | nil => intro t; simp [string_frames]
  | cons c cs ih =>
    intro t
    rw [List.foldl_cons]
    have hc : seqTr (.ok t) (write_character c) =
        .ok (t ++ send_byte_frames (c.toNat : ℤ) LCD_CHARACTER) := by
      rw [write_character, send_byte_ok _ (Or.inr rfl)]
      rfl
    rw [hc, ih]
    simp [string_frames]

/-! ## Display-control state (`LCD.__update_display_control` and the
`display_on` / `cursor_on` / `blink_on` family, lines 65-85 and 244-274) -/

/-- The three boolean flags `__display_on`, `__blink_on`, `__cursor_on`. -/
structure Flags where
  display_on : Bool
  blink_on : Bool
  cursor_on : Bool
  deriving DecidableEq

/-- The control byte computed by `LCD.__update_display_control`
(lines 73-85). -/
def display_control_byte (f : Flags) : ℤ :=
  let c := LCD_DISPLAYCONTROL
  let c := if f.display_on then pyOr c LCD_DISPLAYON else c
  let c := if f.blink_on then pyOr c LCD_BLINKON else c
  let c := if f.cursor_on then pyOr c LCD_CURSORON else c
  c

def update_display_control (f : Flags) : Tr :=
  send_byte (display_control_byte f) LCD_COMMAND

/-- `LCD.display_on` (lines 244-247). -/
def display_on (f : Flags) (value : Bool) : Flags × Tr :=
  let f := { f with display_on := value }
  (f, update_display_control f)

/-- `LCD.blink_on` (lines 249-257): sets the blink flag, and when it is now
set, also forces the cursor flag on. -/
def blink_on (f : Flags) (value : Bool) : Flags × Tr :=
  let f := { f with blink_on := value }
  let f := if f.blink_on then { f with cursor_on := true } else f
  (f, update_display_control f)

/-- `LCD.cursor_on` (lines 259-262). -/
def cursor_on (f : Flags) (value : Bool) : Flags × Tr :=
  let f := { f with cursor_on := value }
  (f, update_display_control f)

/-- `LCD.display_off` (lines 264-266). -/
def display_off (f : Flags) : Flags × Tr := display_on f false

/-- `LCD.cursor_off` (lines 268-270). -/
def cursor_off (f : Flags) : Flags × Tr := cursor_on f false

/-- `LCD.blink_off` (lines 272-274). -/
def blink_off (f : Flags) : Flags × Tr := blink_on f false

/-- The flag state set up by `LCD.__init__` (lines 65-67). -/
def init_flags : Flags := ⟨true, false, false⟩

/-- The command sequence run by `LCD.__init__` (lines 59-71), in order:
`0x03` three times, `0x02`, entry-mode-set, the display-control update for
the initial flags, then clear-display.  Nothing else in the constructor
touches the transport, and every public operation is only available on the
constructed object, i.e. after this trace. -/
def init_trace : Tr :=
  seqTr (send_byte 0x03 LCD_COMMAND)
    (seqTr (send_byte 0x03 LCD_COMMAND)
      (seqTr (send_byte 0x03 LCD_COMMAND)
        (seqTr (send_byte 0x02 LCD_COMMAND)
          (seqTr (send_byte (pyOr LCD_ENTRYMODESET LCD_ENTRYLEFT) LCD_COMMAND)
            (seqTr (update_display_control init_flags)
              (send_byte LCD_CLEARDISPLAY LCD_COMMAND))))))

/-- `LCD.clear` (lines 236-238). -/
def clear : Tr := send_byte LCD_CLEARDISPLAY LCD_COMMAND

/-- `LCD.return_home` (lines 240-242). -/
def return_home : Tr := send_byte LCD_RETURNHOME LCD_COMMAND

/-! ## Python string builtins used by the layout layer -/

/-- Accumulator-based model of Python `str.split()` (split on runs of
whitespace, no empty words); `acc` holds the current word reversed. -/
def py_split_aux : List Char → List Char → List (List Char)
  | [], acc => if acc = [] then [] else [acc.reverse]
  | c :: cs, acc =>
    if c.isWhitespace then
      if acc = [] then py_split_aux cs []
      else acc.reverse :: py_split_aux cs []
    else py_split_aux cs (c :: acc)

/-- Model of Python `str.split()` with no arguments. -/
def py_split (s : List Char) : List (List Char) := py_split_aux s []

/-- Model of Python `str.rstrip()` with no arguments: remove trailing
whitespace characters. -/
def py_rstrip (s : List Char) : List Char :=
  (s.reverse.dropWhile Char.isWhitespace).reverse

/-- Every word produced by `py_split` is nonempty and whitespace-free. -/
theorem py_split_aux_words :
    ∀ (s acc : List Char), (∀ c ∈ acc, ¬c.isWhitespace = true) →
      ∀ w ∈ py_split_aux s acc,
        w ≠ [] ∧ ∀ c ∈ w, ¬c.isWhitespace = true := by
  intro s
  induction s with
  | nil =>
    intro acc hacc w hw
    rw [py_split_aux] at hw
    split at hw
    · simp at hw
    · rename_i hne
      simp only [List.mem_singleton] at hw
      subst hw
      refine ⟨by simpa using hne, ?_⟩
      intro c hc
      exact hacc c (List.mem_reverse.mp hc)
  | cons c cs ih =>
    intro acc hacc w hw
    rw [py_split_aux] at hw
    split at hw
    · rename_i hws
      split at hw
      · exact ih [] (by simp) w hw
      · rename_i hne
        rcases List.mem_cons.mp hw with rfl | hw'
        · refine ⟨by simpa using hne, ?_⟩
          intro d hd
          exact hacc d (List.mem_reverse.mp hd)
        · exact ih [] (by simp) w hw'
    · rename_i hws
      refine ih (c :: acc) ?_ w hw
      intro d hd
      rcases List.mem_cons.mp hd with rfl | hd'
      · simpa using hws
      · exact hacc d hd'

theorem py_split_words (s : List Char) :
    ∀ w ∈ py_split s, w ≠ [] ∧ ∀ c ∈ w, ¬c.isWhitespace = true :=
  py_split_aux_words s [] (by simp)

/-! ## Word wrapping (`LCD.write`, lines 154-188) -/

/-- The inner `while` loop of `LCD.write` (lines 170-174): greedily move
words from the front of `words` into `line`, each followed by one space,
while `len(current_line) + len(words[words_idx]) <= cols` holds.  The index
`words_idx` is modelled by returning the unconsumed suffix. -/
def pack_line (cols : ℕ) : List (List Char) → List Char →
    List Char × List (List Char)
  | [], line => (line, [])
  | w :: ws, line =>
    if line.length + w.length ≤ cols then pack_line cols ws (line ++ w ++ [' '])
    else (line, w :: ws)

/-- The outer `while row < rows` loop of `LCD.write` (lines 167-188), with
the number of remaining iterations `(rows - row).toNat` passed as fuel (the
loop increments `row` each iteration, so this is exact).  Branches, in the
order of the source: a nonempty packed line is written `rstrip`ped; otherwise
if words remain the next word can never fit, so its first `cols` characters
are written and the rest replaces it in the word list; otherwise the loop
returns `row`.  `set_cursor(row, 0)` is issued before this branching. -/
def write_loop (cols : ℕ) : ℕ → List (List Char) → ℤ →
    Except String (List ℤ × ℤ)
  | 0, _, row => .ok ([], row)
  | fuel + 1, words, row =>
    let line := (pack_line cols words []).1
    let rest := (pack_line cols words []).2
    match set_cursor cols row 0 with
    | .error e => .error e
    | .ok cur =>
      if 0 < line.length then
        match write_loop cols fuel rest (row + 1) with
        | .error e => .error e
        | .ok p => .ok (cur ++ string_frames (py_rstrip line) ++ p.1, p.2)
      else
        match rest with
        | w :: ws =>
          match write_loop cols fuel ((w.drop cols) :: ws) (row + 1) with
          | .error e => .error e
          | .ok p => .ok (cur ++ string_frames (w.take cols) ++ p.1, p.2)
        | [] => .ok (cur, row)

/-- `LCD.write` (lines 154-188): split the text into words and run the
wrapping loop from `start_row`; result is the transport trace together with
the returned "next free row". -/
def write (rows cols : ℕ) (string : List Char) (row : ℤ) :
    Except String (List ℤ × ℤ) :=
  write_loop cols ((rows : ℤ) - row).toNat (py_split string) row

/-! ## Aligned writing (`LCD.write_center`, lines 201-212) -/

def err_row_write : String := "invalid row for writing to display"

/-- `LCD.write_center` (lines 201-212): after the row check, set the cursor
to column `(cols - len(string)) // 2` (Python floor division is `Int.fdiv`)
and write the string. -/
def write_center (rows cols : ℕ) (s : List Char) (row : ℤ) : Tr :=
  if ¬(0 ≤ row ∧ row < (rows : ℤ)) then .error err_row_write
  else
    seqTr (set_cursor cols row (Int.fdiv ((cols : ℤ) - s.length) 2))
      (write_string s)

/-! ## Claim-side layout model (wording of claim C4)

`spec_pack`/`spec_write_loop` transcribe the claim's description of the
algorithm: words are packed "separated by a single space" into a line (no
trailing space), while the line length plus the next word's length stays at
most `cols`; each row gets a cursor-set to `(row, 0)` and the trimmed line;
when all words are consumed and the line is empty the current row is
returned.  (The claim does not describe the oversized-word branch; for a
word that never fits this model writes the empty line and moves on.) -/

def spec_pack (cols : ℕ) : List (List Char) → List Char →
    List Char × List (List Char)
  | [], line => (line, [])
  | w :: ws, line =>
    if (if line = [] then w.length else line.length + 1 + w.length) ≤ cols
    then spec_pack cols ws (if line = [] then w else line ++ [' '] ++ w)
    else (line, w :: ws)

def spec_write_loop (cols : ℕ) : ℕ → List (List Char) → ℤ → List ℤ × ℤ
  | 0, _, row => ([], row)
  | fuel + 1, words, row =>
    let line := (spec_pack cols words []).1
    let rest := (spec_pack cols words []).2
    if line = [] ∧ rest = [] then (set_cursor_frames row 0, row)
    else
      let p := spec_write_loop cols fuel rest (row + 1)
      (set_cursor_frames row 0 ++ string_frames line ++ p.1, p.2)

def spec_write (rows cols : ℕ) (string : List Char) (row : ℤ) :
    List ℤ × ℤ :=
  spec_write_loop cols ((rows : ℤ) - row).toNat (py_split string) row

/-! ## Equivalence of the two packing loops (for claim C4) -/

/-- A word as produced by `py_split`: nonempty and whitespace-free. -/
def good_word (cols : ℕ) (w : List Char) : Prop :=
  w ≠ [] ∧ (∀ c ∈ w, ¬c.isWhitespace = true) ∧ w.length ≤ cols

/-- A line whose last character (if any) is not whitespace: exactly the
lines on which `rstrip` only removes a trailing space we appended. -/
def good_line (l : List Char) : Prop :=
  l = [] ∨ ∃ c, l.getLast? = some c ∧ ¬c.isWhitespace = true

theorem good_line_append {l w : List Char} (hw : w ≠ [])
    (hwf : ∀ c ∈ w, ¬c.isWhitespace = true) : good_line (l ++ w) := by
  right
  obtain ⟨c, hc⟩ := Option.isSome_iff_exists.mp (List.getLast?_isSome.mpr hw)
  refine ⟨c, ?_, hwf c (List.mem_of_getLast?_eq_some hc)⟩
  rw [List.getLast?_append, hc]
  rfl

theorem py_rstrip_append_space {l : List Char} (h : good_line l) :
    py_rstrip (l ++ [' ']) = l := by
  rw [py_rstrip, List.reverse_append]
  show (((' ' :: l.reverse).dropWhile Char.isWhitespace)).reverse = l
  rw [List.dropWhile_cons_of_pos (by decide)]
  rcases h with rfl | ⟨c, hc, hcw⟩
  · simp
  · have hhead : l.reverse.head? = some c := by
      rw [List.head?_reverse]; exact hc
    match hrev : l.reverse with
    | [] => rw [hrev] at hhead; simp at hhead
    | d :: t =>
      rw [hrev] at hhead
      have : d = c := by simpa using hhead
      subst this
      rw [List.dropWhile_cons_of_neg (by simpa using hcw), ← hrev,
        List.reverse_reverse]

/-- Core relation between the source's packing loop (line carries a trailing
space) and the claim's packing loop (single spaces between words): starting
from corresponding lines they consume the same words, and the source line
stays the claim line plus one trailing space. -/
theorem pack_rel (cols : ℕ) :
    ∀ (ws : List (List Char)) (l : List Char),
      (∀ w ∈ ws, good_word cols w) → l ≠ [] → good_line l →
      pack_line cols ws (l ++ [' ']) =
          ((spec_pack cols ws l).1 ++ [' '], (spec_pack cols ws l).2) ∧
        (spec_pack cols ws l).1 ≠ [] ∧ good_line (spec_pack cols ws l).1 := by
  intro ws
  induction ws with
  | nil =>
    intro l hws hl hgl
    exact ⟨rfl, hl, hgl⟩
  | cons w ws ih =>
    intro l hws hl hgl
    have hw := hws w (List.mem_cons_self w ws)
    have hcond : ((l ++ [' ']).length + w.length ≤ cols) ↔
        ((if l = [] then w.length else l.length + 1 + w.length) ≤ cols) := by
      rw [if_neg hl]
      simp [List.length_append]
    rw [pack_line, spec_pack]
    by_cases h : (if l = [] then w.length else l.length + 1 + w.length) ≤ cols
    · rw [if_pos h, if_pos (hcond.mpr h), if_neg hl]
      have hassoc : l ++ [' '] ++ w ++ [' '] = (l ++ [' '] ++ w) ++ [' '] := by
        simp
      rw [hassoc]
      exact ih (l ++ [' '] ++ w) (fun x hx => hws x (List.mem_cons_of_mem _ hx))
        (by simp [hw.1]) (good_line_append hw.1 hw.2.1)
    · rw [if_neg h, if_neg (fun hc => h (hcond.mp hc))]
      exact ⟨rfl, hl, hgl⟩

/-- What one run of the inner loop from the empty line produces, when every
word fits on an empty line: either there are no words (both loops yield
nothing), or both loops pack the same nonempty first line and leave the same
rest, and `rstrip` of the source line is the claim line. -/
theorem pack_line_cases (cols : ℕ) (ws : List (List Char))
    (hws : ∀ w ∈ ws, good_word cols w) :
    (ws = [] ∧ pack_line cols ws [] = ([], []) ∧
        spec_pack cols ws [] = ([], [])) ∨
      (pack_line cols ws [] =
          ((spec_pack cols ws []).1 ++ [' '], (spec_pack cols ws []).2) ∧
        (spec_pack cols ws []).1 ≠ [] ∧
        py_rstrip ((spec_pack cols ws []).1 ++ [' ']) =
          (spec_pack cols ws []).1 ∧
        ∀ w ∈ (spec_pack cols ws []).2, good_word cols w) := by
  match ws with
  | [] => exact Or.inl ⟨rfl, rfl, rfl⟩
  | w :: ws =>
    right
    have hw := hws w (List.mem_cons_self w ws)
    have hfit : (if ([] : List Char) = [] then w.length
        else ([] : List Char).length + 1 + w.length) ≤ cols := by
      rw [if_pos rfl]; exact hw.2.2
    have hrest : ∀ x ∈ (spec_pack cols (w :: ws) []).2, good_word cols x := by
      have hsub : ∀ (vs : List (List Char)) (l : List Char),
          ∀ x ∈ (spec_pack cols vs l).2, x ∈ vs := by
        intro vs
        induction vs with
        | nil => intro l x hx; simp [spec_pack] at hx
        | cons v vs ihv =>
          intro l x hx
          rw [spec_pack] at hx
          by_cases hc :
              (if l = [] then v.length else l.length + 1 + v.length) ≤ cols
          · rw [if_pos hc] at hx
            exact List.mem_cons_of_mem _ (ihv _ x hx)
          · rw [if_neg hc] at hx
            simpa using hx
      intro x hx
      exact hws x (hsub (w :: ws) [] x hx)
    have heq : spec_pack cols (w :: ws) [] = spec_pack cols ws w := by
      rw [spec_pack, if_pos hfit, if_pos rfl]
    have hpack : pack_line cols (w :: ws) [] = pack_line cols ws (w ++ [' ']) := by
      rw [pack_line,
        if_pos (show ([] : List Char).length + w.length ≤ cols by
          simpa using hw.2.2)]
      simp
    rw [heq, hpack]
    rw [heq] at hrest
    have hgw : good_line w := @good_line_append [] w hw.1 hw.2.1
    have hrel := pack_rel cols ws w
      (fun x hx => hws x (List.mem_cons_of_mem _ hx)) hw.1 hgw
    exact ⟨hrel.1, hrel.2.1, py_rstrip_append_space hrel.2.2, hrest⟩

/-- While every word fits on an empty line (so the oversized-word branch is
dead) and the remaining rows are legal cursor rows, `LCD.write`'s loop
produces exactly the trace and return value described by claim C4's greedy
algorithm, and never raises. -/
theorem write_loop_spec (cols : ℕ) (hcols : 0 < cols) :
    ∀ (fuel : ℕ) (ws : List (List Char)) (row : ℤ),
      0 ≤ row → ((row : ℤ) + fuel ≤ 4 ∨ fuel = 0) →
      (∀ w ∈ ws, good_word cols w) →
      write_loop cols fuel ws row = .ok (spec_write_loop cols fuel ws row) := by
  intro fuel
  induction fuel with
  | zero =>
    intro ws row _ _ _
    rfl
  | succ fuel ih =>
    intro ws row hr0 hr4 hws
    have h4 : (row : ℤ) + ((fuel : ℤ) + 1) ≤ 4 := by
      rcases hr4 with h | h
      · push_cast at h; omega
      · exact absurd h (Nat.succ_ne_zero fuel)
    have hrow4 : row < 4 := by omega
    have hcolsZ : (0 : ℤ) < (cols : ℤ) := by exact_mod_cast hcols
    have hcur := @set_cursor_ok cols row 0 hr0 hrow4 le_rfl hcolsZ
    rw [write_loop, spec_write_loop]
    rcases pack_line_cases cols ws hws with ⟨hnil, hp, hs⟩ | ⟨hp, hne, hrs, hrest⟩
    · rw [hp, hs, hcur]
      simp
    · rw [hp, hcur]
      have hrec := ih (spec_pack cols ws []).2 (row + 1) (by omega)
        (by left; omega) hrest
      dsimp only
      rw [if_pos (by simp), hrec, if_neg (by simp [hne]), hrs]

/-! ## Further helpers for the claim theorems -/

theorem or_128_ball : ∀ n : ℕ, n < 128 → 128 ||| n = 128 + n := by decide

/-- For `0 ≤ c < 128`, `LCD_SET_DDRAM | c` is just `128 + c` (the DDRAM bit
is disjoint from the address bits). -/
theorem pyOr_set_ddram {c : ℤ} (h0 : 0 ≤ c) (h : c < 128) :
    pyOr LCD_SET_DDRAM c = 128 + c := by
  obtain ⟨n, rfl⟩ := Int.eq_ofNat_of_zero_le h0
  have hn : n < 128 := by exact_mod_cast h
  show Int.ofNat (128 ||| n) = 128 + Int.ofNat n
  rw [or_128_ball n hn]
  exact_mod_cast rfl

/-! ## Claim theorems -/

/-- C1 counterexample: `send_byte` does not produce exactly two transport
writes — a single call already makes six of them (data frame, enable-high
frame, enable-low frame, for each of the two nibbles). -/
theorem send_byte_six_writes_format_cex :
    send_byte 0x41 LCD_COMMAND = .ok (send_byte_frames 0x41 LCD_COMMAND) ∧
    (send_byte_frames 0x41 LCD_COMMAND).length ≠ 2 := by decide

/-- C1 (amended): for every value in `0..255` and mode in
`{LCD_COMMAND, LCD_CHARACTER}`, `send_byte` raises nothing and produces
exactly six transport writes — three per nibble (data, enable set, enable
cleared) — each with the backlight bit (bit 3) set and bit 0 equal to the
mode's low bit; the high nibbles of the first three writes equal the value's
high nibble, and those of the last three equal the value's low nibble
shifted left by 4. -/
theorem send_byte_six_writes_format (v mode : ℤ) (hv0 : 0 ≤ v)
    (hv255 : v ≤ 255) (hm : mode = LCD_COMMAND ∨ mode = LCD_CHARACTER) :
    send_byte v mode = .ok (send_byte_frames v mode) ∧
    (send_byte_frames v mode).length = 6 ∧
    (∀ b ∈ send_byte_frames v mode,
      pyAnd b LCD_BACKLIGHT = LCD_BACKLIGHT ∧ pyAnd b 1 = mode) ∧
    (∀ b ∈ (send_byte_frames v mode).take 3, pyAnd b 0xf0 = pyAnd v 0xf0) ∧
    (∀ b ∈ (send_byte_frames v mode).drop 3,
      pyAnd b 0xf0 = pyAnd (pyShl v 4) 0xf0) := by
  refine ⟨send_byte_ok v hm, rfl, ?_⟩
  obtain ⟨n, rfl⟩ := Int.eq_ofNat_of_zero_le hv0
  have hle : (n : ℤ) ≤ 255 := hv255
  have hn : n < 256 := by
    have h2 : n ≤ 255 := by exact_mod_cast hle
    omega
  clear hv0 hv255 hle
  rcases hm with rfl | rfl
  · revert n
    decide
  · revert n
    decide

/-- C1 witness. -/
theorem send_byte_six_writes_format_witness :
    send_byte 0x41 LCD_CHARACTER = .ok (send_byte_frames 0x41 LCD_CHARACTER) ∧
    (send_byte_frames 0x41 LCD_CHARACTER).length = 6 ∧
    (∀ b ∈ send_byte_frames 0x41 LCD_CHARACTER,
      pyAnd b LCD_BACKLIGHT = LCD_BACKLIGHT ∧ pyAnd b 1 = LCD_CHARACTER) ∧
    (∀ b ∈ (send_byte_frames 0x41 LCD_CHARACTER).take 3,
      pyAnd b 0xf0 = pyAnd 0x41 0xf0) ∧
    (∀ b ∈ (send_byte_frames 0x41 LCD_CHARACTER).drop 3,
      pyAnd b 0xf0 = pyAnd (pyShl 0x41 4) 0xf0) :=
  send_byte_six_writes_format 0x41 LCD_CHARACTER (by decide) (by decide)
    (Or.inr rfl)

/-- C2 counterexample: `send_byte` with the out-of-range value 256 does not
raise and does not produce zero writes — it writes the same six bytes as the
in-range value 0 (the extra bits are silently masked away by `& 0xf0`). -/
theorem send_byte_out_of_range_cex :
    send_byte 256 LCD_COMMAND = .ok [8, 12, 8, 8, 12, 8] ∧
    send_byte 256 LCD_COMMAND = send_byte 0 LCD_COMMAND := by decide

/-- C2 (amended): for every integer value outside `0..255` and either mode,
`send_byte` does NOT fail: the nibble masking (`& 0xf0`) silently reduces the
value, six transport writes happen, and every written byte is in `0..255`
(so the inner `__write_i2c_byte` range check never fires). -/
theorem send_byte_out_of_range_masks (v : ℤ) (_hv : v < 0 ∨ 255 < v)
    (mode : ℤ) (hm : mode = LCD_COMMAND ∨ mode = LCD_CHARACTER) :
    send_byte v mode = .ok (send_byte_frames v mode) ∧
    (send_byte_frames v mode).length = 6 ∧
    ∀ b ∈ send_byte_frames v mode, 0 ≤ b ∧ b ≤ 255 :=
  ⟨send_byte_ok v hm, rfl, send_byte_frames_range v hm⟩

/-- C2 witness. -/
theorem send_byte_out_of_range_masks_witness :
    (send_byte (-1) LCD_CHARACTER = .ok (send_byte_frames (-1) LCD_CHARACTER) ∧
      (send_byte_frames (-1) LCD_CHARACTER).length = 6 ∧
      ∀ b ∈ send_byte_frames (-1) LCD_CHARACTER, 0 ≤ b ∧ b ≤ 255) ∧
    (send_byte 300 LCD_COMMAND = .ok (send_byte_frames 300 LCD_COMMAND) ∧
      (send_byte_frames 300 LCD_COMMAND).length = 6 ∧
      ∀ b ∈ send_byte_frames 300 LCD_COMMAND, 0 ≤ b ∧ b ≤ 255) :=
  ⟨send_byte_out_of_range_masks (-1) (Or.inl (by decide)) LCD_CHARACTER
      (Or.inr rfl),
    send_byte_out_of_range_masks 300 (Or.inr (by decide)) LCD_COMMAND
      (Or.inl rfl)⟩

/-- C3 counterexample: the command byte is `(SET_DDRAM | col) + offset`, not
`SET_DDRAM | (offset + col)`; for a display constructed with 101 columns, at
row 3 and column 100 the two differ (312 vs 184) and so do the transmitted
frames. -/
theorem set_cursor_ddram_address_cex :
    set_cursor 101 3 100 =
      .ok (send_byte_frames ((pyOr LCD_SET_DDRAM 100) + 0x54) LCD_COMMAND) ∧
    (pyOr LCD_SET_DDRAM 100) + 0x54 ≠ pyOr LCD_SET_DDRAM (0x54 + 100) ∧
    send_byte_frames ((pyOr LCD_SET_DDRAM 100) + 0x54) LCD_COMMAND ≠
      send_byte_frames (pyOr LCD_SET_DDRAM (0x54 + 100)) LCD_COMMAND := by
  decide

/-- C3 (amended): for row in `{0,1,2,3}` and `0 ≤ col < cols`, whenever
`row_offsets[row] + col < 128` (true in particular for every `cols ≤ 44`,
hence for all real HD44780U geometries), `set_cursor` sends as a command
exactly `SET_DDRAM_BIT | (offset + col)` with offsets `0x00, 0x40, 0x14,
0x54`; for row outside `[0,4)` or col outside `[0,cols)` it raises and
issues no transport write. -/
theorem set_cursor_ddram_address (cols : ℕ) (row col : ℤ) :
    (0 ≤ row → row < 4 → 0 ≤ col → col < (cols : ℤ) →
      row_offsets.getD row.toNat 0 + col < 128 →
      set_cursor cols row col =
        .ok (send_byte_frames
          (pyOr LCD_SET_DDRAM (row_offsets.getD row.toNat 0 + col))
          LCD_COMMAND)) ∧
    (¬(0 ≤ row ∧ row < 4) ∨ ¬(0 ≤ col ∧ col < (cols : ℤ)) →
      ∃ e, set_cursor cols row col = .error e) := by
  constructor
  · intro hr0 hr4 hc0 hc hoff
    rw [set_cursor_ok hr0 hr4 hc0 hc, set_cursor_frames]
    have hoff0 : 0 ≤ row_offsets.getD row.toNat 0 ∧
        row_offsets.getD row.toNat 0 ≤ 0x54 := by
      interval_cases row <;> decide
    rw [pyOr_set_ddram hc0 (by omega), pyOr_set_ddram (by omega) hoff]
    ring_nf
  · intro h
    by_cases hrow : 0 ≤ row ∧ row < 4
    · have hcol : ¬(0 ≤ col ∧ col < (cols : ℤ)) := by tauto
      rw [set_cursor, if_neg (not_not_intro hrow), if_pos hcol]
      exact ⟨err_col, rfl⟩
    · rw [set_cursor, if_pos hrow]
      exact ⟨err_row, rfl⟩

/-- C3 witness: row 1 (offset `0x40`), column 3 on the default 20-column
geometry addresses DDRAM cell `0x43`. -/
theorem set_cursor_ddram_address_witness :
    set_cursor 20 1 3 =
      .ok (send_byte_frames (pyOr LCD_SET_DDRAM 67) LCD_COMMAND) := by
  have h := (set_cursor_ddram_address 20 1 3).1 (by decide) (by decide)
    (by decide) (by decide) (by decide)
  have h2 : row_offsets.getD (1 : ℤ).toNat 0 + 3 = 67 := by decide
  rw [h2] at h
  exact h

/-- C5 (confirmed): whenever the packed line is empty (the head word cannot
fit even alone, `cols < w.length`) and words remain, one loop iteration
writes `set_cursor(row, 0)` followed by the first `cols` characters of the
word, and recurses on the next row with the remainder of the word put back
in front of the word list; the remainder is strictly shorter, so `write`
makes progress on every word longer than `cols`. -/
theorem write_oversized_word_split (cols : ℕ) (w : List Char)
    (ws : List (List Char)) (row : ℤ) (fuel : ℕ) (hr0 : 0 ≤ row)
    (hr4 : row < 4) (hc : 0 < cols) (hw : cols < w.length) :
    write_loop cols (fuel + 1) (w :: ws) row =
      Except.map
        (fun p => (set_cursor_frames row 0 ++
          string_frames (w.take cols) ++ p.1, p.2))
        (write_loop cols fuel ((w.drop cols) :: ws) (row + 1)) ∧
    (w.drop cols).length < w.length ∧ (w.take cols).length = cols := by
  have hcolsZ : (0 : ℤ) < (cols : ℤ) := by exact_mod_cast hc
  have hpack : pack_line cols (w :: ws) [] = ([], w :: ws) := by
    rw [pack_line, if_neg (by simp; omega)]
  refine ⟨?_, by simp [List.length_drop]; omega, by simp [List.length_take]; omega⟩
  rw [write_loop, hpack, @set_cursor_ok cols row 0 hr0 hr4 le_rfl hcolsZ]
  dsimp only
  rw [if_neg (by simp)]
  cases hrec : write_loop cols fuel ((w.drop cols) :: ws) (row + 1) with
  | error e => simp [Except.map]
  | ok p => simp [Except.map]

/-- C5 witness: a single 30-character word on a 20-column display — 20
characters written on the current row, the 10-character remainder heads the
next row's packing. -/
theorem write_oversized_word_split_witness :
    write_loop 20 (3 + 1) (List.replicate 30 'a' :: []) 0 =
      Except.map
        (fun p => (set_cursor_frames 0 0 ++
          string_frames ((List.replicate 30 'a').take 20) ++ p.1, p.2))
        (write_loop 20 3 (((List.replicate 30 'a').drop 20) :: []) 1) ∧
    ((List.replicate 30 'a').drop 20).length < (List.replicate 30 'a').length ∧
    ((List.replicate 30 'a').take 20).length = 20 :=
  write_oversized_word_split 20 (List.replicate 30 'a') [] 0 3 (by decide)
    (by decide) (by decide) (by decide)

/-- C6 (confirmed): construction runs exactly this command sequence, in this
order, before anything else: `0x03` three times, then `0x02`, then
entry-mode-set with left-to-right increment, then the display-control byte
for display on with cursor and blink off, then clear-display. -/
theorem init_command_sequence :
    init_trace = .ok
      (([0x03, 0x03, 0x03, 0x02, pyOr LCD_ENTRYMODESET LCD_ENTRYLEFT,
          display_control_byte ⟨true, false, false⟩,
          LCD_CLEARDISPLAY].map
        fun c => send_byte_frames c LCD_COMMAND).flatten) ∧
    init_flags = ⟨true, false, false⟩ ∧
    display_control_byte ⟨true, false, false⟩ =
      pyOr LCD_DISPLAYCONTROL LCD_DISPLAYON := by
  refine ⟨by decide, rfl, by decide⟩

/-- C7 (confirmed): `blink_on(true)` always leaves `cursor_on = true`; a
subsequent `blink_off` leaves `cursor_on` unchanged (still true); and the
coupling is one-directional — turning the cursor off never touches the
blink flag. -/
theorem blink_forces_cursor (f : Flags) :
    ((blink_on f true).1).cursor_on = true ∧
    ((blink_off (blink_on f true).1).1).cursor_on = true ∧
    ((cursor_on f false).1).blink_on = f.blink_on :=
  ⟨rfl, rfl, rfl⟩

/-- C9 (confirmed): `write_center(s, row)` for `0 ≤ row < rows` sets the
cursor to column `(cols - len(s)) // 2` (floor division) before writing `s`;
when `len(s) > cols` that column is negative and the underlying `set_cursor`
call raises. -/
theorem write_center_column (rows cols : ℕ) (s : List Char) (row : ℤ)
    (hr0 : 0 ≤ row) (hr : row < (rows : ℤ)) :
    (row < 4 → 0 ≤ Int.fdiv ((cols : ℤ) - s.length) 2 →
      Int.fdiv ((cols : ℤ) - s.length) 2 < (cols : ℤ) →
      write_center rows cols s row =
        .ok (set_cursor_frames row (Int.fdiv ((cols : ℤ) - s.length) 2) ++
          string_frames s)) ∧
    ((cols : ℤ) < s.length →
      Int.fdiv ((cols : ℤ) - s.length) 2 < 0 ∧
      ∃ e, write_center rows cols s row = .error e) := by
  constructor
  · intro h4 hc0 hcc
    rw [write_center, if_neg (not_not_intro ⟨hr0, hr⟩),
      set_cursor_ok hr0 h4 hc0 hcc, write_string_ok]
    rfl
  · intro hlen
    have hneg : Int.fdiv ((cols : ℤ) - s.length) 2 < 0 := by
      rw [Int.fdiv_eq_ediv _ (by norm_num)]
      exact Int.ediv_neg' (by omega) (by norm_num)
    refine ⟨hneg, ?_⟩
    rw [write_center, if_neg (not_not_intro ⟨hr0, hr⟩)]
    by_cases h4 : 0 ≤ row ∧ row < 4
    · rw [set_cursor, if_neg (not_not_intro h4), if_pos (by omega)]
      exact ⟨err_col, rfl⟩
    · rw [set_cursor, if_pos h4]
      exact ⟨err_row, rfl⟩

/-- C9 witness: `write_center("2", 0)` on the default 20-column display sets
the cursor to column `(20 - 1) // 2 = 9` before writing. -/
theorem write_center_column_witness :
    write_center 4 20 ['2'] 0 =
      .ok (set_cursor_frames 0 9 ++ string_frames ['2']) := by
  have h := (write_center_column 4 20 ['2'] 0 (by decide) (by decide)).1
    (by decide) (by decide) (by decide)
  have h2 : Int.fdiv ((((20 : ℕ) : ℤ)) - (['2'] : List Char).length) 2 = 9 := by
    decide
  rw [h2] at h
  exact h

/-! ## Helpers for claims C4, C8 and C10 -/

/-- Words joined by single spaces (claim C8's "single call `write(s, 0)`"
writes exactly this for a one-line text). -/
def join_words : List (List Char) → List Char
  | [] => []
  | [w] => w
  | w :: ws => w ++ [' '] ++ join_words ws

/-- The left-hand side of claim C8: `clear()` then `set_cursor(0, 0)` then
`write_string(s)`. -/
def clear_cursor_write (cols : ℕ) (s : List Char) : Tr :=
  seqTr clear (seqTr (set_cursor cols 0 0) (write_string s))

theorem join2_eq_join_words :
    ∀ ws : List (List Char), ws ≠ [] →
      (ws.map fun w => w ++ [' ']).flatten = join_words ws ++ [' '] := by
  intro ws
  induction ws with
  | nil => intro h; exact absurd rfl h
  | cons w ws ih =>
    intro _
    cases ws with
    | nil => simp [join_words]
    | cons v vs =>
      have hjw : join_words (w :: v :: vs) = w ++ [' '] ++ join_words (v :: vs) :=
        rfl
      rw [hjw]
      have h := ih (by simp)
      simp only [List.map_cons, List.flatten_cons] at h ⊢
      rw [h]
      simp [List.append_assoc]

theorem join_words_ne_nil {v : List Char} {vs : List (List Char)}
    (hv : v ≠ []) : join_words (v :: vs) ≠ [] := by
  cases vs with
  | nil => simpa [join_words] using hv
  | cons u us =>
    have hjw : join_words (v :: u :: us) = v ++ [' '] ++ join_words (u :: us) :=
      rfl
    simp [hjw]

theorem join_words_good_line :
    ∀ ws : List (List Char),
      (∀ w ∈ ws, w ≠ [] ∧ ∀ c ∈ w, ¬c.isWhitespace = true) →
      good_line (join_words ws) := by
  intro ws
  induction ws with
  | nil => exact fun _ => Or.inl rfl
  | cons w ws ih =>
    intro h
    have hw := h w (List.mem_cons_self w ws)
    cases ws with
    | nil => exact @good_line_append [] w hw.1 hw.2
    | cons v vs =>
      have hjw : join_words (w :: v :: vs) = w ++ [' '] ++ join_words (v :: vs) :=
        rfl
      rw [hjw]
      have hv := h v (List.mem_cons_of_mem _ (List.mem_cons_self v vs))
      have hj := ih fun x hx => h x (List.mem_cons_of_mem _ hx)
      have hjn : join_words (v :: vs) ≠ [] := join_words_ne_nil hv.1
      rcases hj with hnil | ⟨c, hc, hcw⟩
      · exact absurd hnil hjn
      · right
        refine ⟨c, ?_, hcw⟩
        rw [List.append_assoc, List.getLast?_append, List.getLast?_append, hc]
        rfl

/-- When the single-space-joined text fits on one line, the inner loop
consumes every word. -/
theorem pack_line_all (cols : ℕ) :
    ∀ (ws : List (List Char)) (l : List Char),
      l.length + ((ws.map fun w => w ++ [' ']).flatten).length ≤ cols + 1 →
      pack_line cols ws l = (l ++ (ws.map fun w => w ++ [' ']).flatten, []) := by
  intro ws
  induction ws with
  | nil =>
    intro l h
    simp [pack_line]
  | cons w ws ih =>
    intro l h
    rw [List.map_cons, List.flatten_cons] at h ⊢
    simp only [List.length_append, List.length_singleton] at h
    have hfit : l.length + w.length ≤ cols := by omega
    rw [pack_line, if_pos hfit, ih (l ++ w ++ [' '])]
    · simp [List.append_assoc]
    · simp only [List.length_append, List.length_singleton]
      omega

/-! ## Claim theorems for C4, C8, C10 -/

/-- C4 counterexample: the greedy description of the claim fails as stated.
On a 30-character word (20 columns) the code writes a 20-character prefix
and returns row 2, while the claim's algorithm (which only ever writes
greedily packed lines) would write empty lines on all four rows and return
4; and with `start_row = 5 > rows = 4` the code returns 5, not the total
row count 4. -/
theorem write_greedy_wrap_cex :
    (write 4 20 (List.replicate 30 'a') 0).map Prod.snd = .ok 2 ∧
    (spec_write 4 20 (List.replicate 30 'a') 0).2 = 4 ∧
    write 4 20 (List.replicate 30 'a') 0 ≠
      .ok (spec_write 4 20 (List.replicate 30 'a') 0) ∧
    write 4 20 [' ', 'h', 'i'] 5 = .ok ([], 5) ∧
    (write 4 20 [' ', 'h', 'i'] 5).map Prod.snd ≠ .ok 4 := by decide

/-- C4 (amended): for every text whose whitespace-split words each fit in
`cols`, and every `start_row ≥ 0` (on a geometry with `rows ≤ 4`,
`cols ≥ 1`), `write` raises nothing and produces exactly the trace and
return value of the claim's greedy word-wrap: rows from `start_row` get the
greedily packed, single-space-separated, trimmed lines at column 0; when the
words run out the current row index is returned (after one extra cursor-set
on it), and when the rows run out the current row index — which equals the
total row count whenever `start_row ≤ rows` — is returned, the leftover
words being silently dropped. -/
theorem write_greedy_wrap (rows cols : ℕ) (text : List Char) (start : ℤ)
    (h0 : 0 ≤ start) (hrows : rows ≤ 4) (hcols : 0 < cols)
    (hfit : ∀ w ∈ py_split text, w.length ≤ cols) :
    write rows cols text start = .ok (spec_write rows cols text start) := by
  rw [write, spec_write]
  refine write_loop_spec cols hcols _ _ start h0 ?_ ?_
  · have h4 : (rows : ℤ) ≤ 4 := by exact_mod_cast hrows
    omega
  · intro w hw
    exact ⟨(py_split_words text w hw).1, (py_split_words text w hw).2,
      hfit w hw⟩

/-- C4 witness: two words on one line. -/
theorem write_greedy_wrap_witness :
    write 4 20 ['h', 'i', ' ', 'y', 'o'] 0 =
      .ok (spec_write 4 20 ['h', 'i', ' ', 'y', 'o'] 0) :=
  write_greedy_wrap 4 20 ['h', 'i', ' ', 'y', 'o'] 0 (by decide) (by decide)
    (by decide) (by decide)

/-- C8 counterexample: `clear(); set_cursor(0,0); write_string("a")` does
not produce the same byte sequence as `write("a", 0)` — the former starts
with the clear command's six bytes, the latter ends with a cursor-set to
row 1 instead. -/
theorem clear_write_round_trip_cex :
    clear_cursor_write 20 ['a'] ≠
      Except.map Prod.fst (write 4 20 ['a'] 0) := by decide

/-- C8 (amended): for a text `s` that is exactly the single-space join of
its words (at least one word), with `len(s) < cols` and `rows ≥ 2`, the two
byte sequences agree on a common core `set_cursor(0,0); chars of s`, but
`clear();set_cursor(0,0);write_string(s)` prefixes the clear command's bytes
while `write(s, 0)` instead suffixes a cursor-set to `(1, 0)` (and returns
row 1). -/
theorem clear_write_round_trip (rows cols : ℕ) (s : List Char)
    (hne : py_split s ≠ []) (hjoin : s = join_words (py_split s))
    (hlen : s.length < cols) (hrows : 2 ≤ rows) :
    clear_cursor_write cols s =
      .ok (send_byte_frames LCD_CLEARDISPLAY LCD_COMMAND ++
        (set_cursor_frames 0 0 ++ string_frames s)) ∧
    write rows cols s 0 =
      .ok (set_cursor_frames 0 0 ++ string_frames s ++
        set_cursor_frames 1 0, 1) := by
  have hcols : (0 : ℤ) < (cols : ℤ) := by
    exact_mod_cast Nat.lt_of_le_of_lt (Nat.zero_le _) hlen
  constructor
  · rw [clear_cursor_write, clear, send_byte_ok _ (Or.inl rfl),
      @set_cursor_ok cols 0 0 le_rfl (by decide) le_rfl hcols,
      write_string_ok]
    rfl
  · have hj2 : ((py_split s).map fun w => w ++ [' ']).flatten = s ++ [' '] := by
      rw [join2_eq_join_words (py_split s) hne, ← hjoin]
    have hgl : good_line s := by
      rw [hjoin]
      exact join_words_good_line _ (py_split_words s)
    have hpack : pack_line cols (py_split s) [] = (s ++ [' '], []) := by
      have h := pack_line_all cols (py_split s) []
        (by rw [hj2]; rw [List.length_append]; simp; omega)
      rw [hj2] at h
      simpa using h
    obtain ⟨m, hm⟩ : ∃ m, ((rows : ℤ) - 0).toNat = m + 2 :=
      ⟨rows - 2, by omega⟩
    rw [write, hm, write_loop, hpack]
    rw [@set_cursor_ok cols 0 0 le_rfl (by decide) le_rfl hcols]
    dsimp only
    rw [if_pos (by simp)]
    rw [write_loop]
    have hp2 : pack_line cols ([] : List (List Char)) [] = ([], []) := rfl
    have h01 : (0 : ℤ) + 1 = 1 := by norm_num
    rw [hp2, h01]
    rw [@set_cursor_ok cols 1 0 (by decide) (by decide) le_rfl hcols]
    dsimp only
    rw [if_neg (by simp)]
    dsimp only
    rw [py_rstrip_append_space hgl]

/-- C8 witness: `s = "ab cd"` on the default geometry. -/
theorem clear_write_round_trip_witness :
    clear_cursor_write 20 ['a', 'b', ' ', 'c', 'd'] =
      .ok (send_byte_frames LCD_CLEARDISPLAY LCD_COMMAND ++
        (set_cursor_frames 0 0 ++
          string_frames ['a', 'b', ' ', 'c', 'd'])) ∧
    write 4 20 ['a', 'b', ' ', 'c', 'd'] 0 =
      .ok (set_cursor_frames 0 0 ++ string_frames ['a', 'b', ' ', 'c', 'd'] ++
        set_cursor_frames 1 0, 1) :=
  clear_write_round_trip 4 20 ['a', 'b', ' ', 'c', 'd'] (by decide)
    (by decide) (by decide) (by decide)

/-- Any successful `write` whose returned row is still inside the display
ends its transport trace with the cursor-set for that returned row. -/
theorem write_loop_trailing (cols rows : ℕ) :
    ∀ (fuel : ℕ) (ws : List (List Char)) (row : ℤ) (tr : List ℤ) (ret : ℤ),
      (rows : ℤ) ≤ row + fuel →
      write_loop cols fuel ws row = .ok (tr, ret) → ret < (rows : ℤ) →
      ∃ pre, tr = pre ++ set_cursor_frames ret 0 := by
  intro fuel
  induction fuel with
  | zero =>
    intro ws row tr ret hinv h hret
    rw [write_loop] at h
    injection h with h'
    rw [Prod.mk.injEq] at h'
    obtain ⟨h1, h2⟩ := h'
    subst h2
    exact absurd hret (by push_cast at hinv; omega)
  | succ fuel ih =>
    intro ws row tr ret hinv h hret
    rw [write_loop] at h
    cases hcur : set_cursor cols row 0 with
    | error e =>
      rw [hcur] at h
      exact absurd h (by simp)
    | ok cur =>
      rw [hcur] at h
      have hcurval : cur = set_cursor_frames row 0 := set_cursor_ok_inv hcur
      dsimp only at h
      by_cases hline : 0 < (pack_line cols ws []).1.length
      · rw [if_pos hline] at h
        cases hrec : write_loop cols fuel (pack_line cols ws []).2 (row + 1)
          with
        | error e =>
          rw [hrec] at h
          exact absurd h (by simp)
        | ok p =>
          rw [hrec] at h
          injection h with h'
          rw [Prod.mk.injEq] at h'
          obtain ⟨h1, h2⟩ := h'
          subst h1
          subst h2
          obtain ⟨pre, hpre⟩ := ih _ (row + 1) p.1 p.2
            (by push_cast at hinv ⊢; omega) (by rw [hrec]) hret
          refine ⟨(cur ++ string_frames (py_rstrip (pack_line cols ws []).1))
            ++ pre, ?_⟩
          rw [hpre]
          simp [List.append_assoc]
      · rw [if_neg hline] at h
        cases hws : (pack_line cols ws []).2 with
        | cons w ws' =>
          rw [hws] at h
          dsimp only at h
          cases hrec : write_loop cols fuel ((w.drop cols) :: ws') (row + 1)
            with
          | error e =>
            rw [hrec] at h
            exact absurd h (by simp)
          | ok p =>
            rw [hrec] at h
            injection h with h'
            rw [Prod.mk.injEq] at h'
            obtain ⟨h1, h2⟩ := h'
            subst h1
            subst h2
            obtain ⟨pre, hpre⟩ := ih _ (row + 1) p.1 p.2
              (by push_cast at hinv ⊢; omega) (by rw [hrec]) hret
            refine ⟨(cur ++ string_frames (w.take cols)) ++ pre, ?_⟩
            rw [hpre]
            simp [List.append_assoc]
        | nil =>
          rw [hws] at h
          dsimp only at h
          injection h with h'
          rw [Prod.mk.injEq] at h'
          obtain ⟨h1, h2⟩ := h'
          subst h1
          subst h2
          exact ⟨[], by rw [hcurval]; simp⟩

/-- C10 (confirmed): whenever `write` consumes all its words before the rows
run out, the transport trace ends with one extra cursor-set addressing
`(returned_row, 0)` even though no characters are written there; in
particular `write("", r)` for `0 ≤ r < rows` issues exactly one cursor-set
command sequence and returns `r`. -/
theorem write_trailing_cursor_set :
    (∀ (rows cols : ℕ) (text : List Char) (row : ℤ) (tr : List ℤ) (ret : ℤ),
      write rows cols text row = .ok (tr, ret) → ret < (rows : ℤ) →
      ∃ pre, tr = pre ++ set_cursor_frames ret 0) ∧
    (∀ (rows cols : ℕ) (r : ℤ), 0 ≤ r → r < (rows : ℤ) → rows ≤ 4 →
      0 < cols → write rows cols [] r = .ok (set_cursor_frames r 0, r)) := by
  constructor
  · intro rows cols text row tr ret h hret
    exact write_loop_trailing cols rows _ _ row tr ret (by omega) h hret
  · intro rows cols r h0 hr h4 hc
    have hcolsZ : (0 : ℤ) < (cols : ℤ) := by exact_mod_cast hc
    have hr4 : r < 4 := by
      have : (rows : ℤ) ≤ 4 := by exact_mod_cast h4
      omega
    obtain ⟨k, hk⟩ : ∃ k, ((rows : ℤ) - r).toNat = k + 1 :=
      ⟨((rows : ℤ) - r).toNat - 1, by omega⟩
    rw [write]
    have hsplit : py_split ([] : List Char) = [] := rfl
    rw [hsplit, hk, write_loop]
    have hp : pack_line cols ([] : List (List Char)) [] = ([], []) := rfl
    rw [hp]
    dsimp only
    rw [@set_cursor_ok cols r 0 h0 hr4 le_rfl hcolsZ]
    simp

/-- C10 witness: `write("", 2)` on the default geometry issues exactly the
cursor-set for `(2, 0)` and returns 2; that trace indeed ends with the
cursor-set of the returned row. -/
theorem write_trailing_cursor_set_witness :
    write 4 20 [] 2 = .ok (set_cursor_frames 2 0, 2) ∧
    (∃ pre, set_cursor_frames (2 : ℤ) 0 =
      pre ++ set_cursor_frames (2 : ℤ) 0) := by
  have h2 := write_trailing_cursor_set.2 4 20 2 (by decide) (by decide)
    (by decide) (by decide)
  exact ⟨h2, write_trailing_cursor_set.1 4 20 [] 2 _ 2 h2 (by decide)⟩

end LCD
